import Mathlib

/-!
# Verification of the BPMix transition-compatibility model and greedy sequencer

Shallow embedding of the core of `app.py`: the Camelot key-adjacency model
(`CAMELOT_MAP`, `camelot_neighbors`), the pairwise transition scorer
(`transition_score`) and the greedy sequencer (`order_songs_greedy`).

Conventions of the embedding:
* A Python track dict `{title, bpm, key, artwork}` is a `Track`; `bpm` and
  `key` may be `None` in Python, hence `Option` fields.  Python dict equality
  is value equality, hence `DecidableEq`.
* Python numbers are modelled by `ℚ` (the scorer's weight is exactly `0.5`).
* A Python call that raises (e.g. `abs(None - x)`, or `sorted` comparing a
  `None` bpm) is modelled by `Option.none`: `transition_score` and
  `order_songs_greedy` return `Option` results, `none` meaning the call raises.
* A Camelot code string such as `"8B"` is represented as the pair
  `⟨8, Mode.B⟩`; `camelot_neighbors` parses the number and the mode letter out
  of the string and rebuilds strings from them, which the pair represents
  transparently.
* Python `sorted(key=...)` is a stable sort, modelled by insertion sort;
  `min(xs, key=f)` keeps the first element attaining the minimum (it replaces
  the running best only on a strictly smaller key), modelled by `pickMin`;
  `list.remove(x)` deletes the first element equal to `x`, modelled by
  `List.erase`.
-/

namespace BPMix

/-- The mode letter of a Camelot code: `A` (minor) or `B` (major). -/
inductive Mode where
  | A : Mode
  | B : Mode
deriving DecidableEq, Repr

/-- `'A' if mode == 'B' else 'B'` (line 28 of `app.py`). -/
def Mode.flip : Mode → Mode
  | .B => .A
  | .A => .B

/-- A Camelot code: the string `"8B"` is represented as wheel number 8 with
mode letter `B`.  `num` is an unbounded integer because
`camelot_neighbors` does integer arithmetic on it. -/
structure Camelot where
  num : ℤ
  mode : Mode
deriving DecidableEq, Repr

/-- The fixed pitch-class → Camelot dict `CAMELOT_MAP` of `app.py`
(lines 16–19), as an association list. -/
def CAMELOT_MAP : List (String × Camelot) :=
  [("C", ⟨8, .B⟩), ("C#", ⟨3, .B⟩), ("D", ⟨10, .B⟩), ("D#", ⟨5, .B⟩),
   ("E", ⟨12, .B⟩), ("F", ⟨7, .B⟩), ("F#", ⟨2, .B⟩), ("G", ⟨9, .B⟩),
   ("G#", ⟨4, .B⟩), ("A", ⟨11, .B⟩), ("A#", ⟨6, .B⟩), ("B", ⟨1, .B⟩)]

/-- `CAMELOT_MAP.get(k)`: dict lookup, `None` when the label is absent. -/
def camelotGet (k : String) : Option Camelot :=
  (CAMELOT_MAP.find? fun p => p.1 == k).map Prod.snd

/-- The twelve pitch-class labels (the `notes` list of `analyze_file`,
line 110 of `app.py`; also exactly the keys of `CAMELOT_MAP`). -/
def notes : List String :=
  ["C", "C#", "D", "D#", "E", "F"] ++ ["F#", "G", "G#", "A", "A#", "B"]

/-- `camelot_neighbors` (lines 21–30 of `app.py`): the code itself, the
clockwise neighbour `(num % 12) + 1`, the counterclockwise neighbour
`(num - 2) % 12 + 1` (Python `%` is floor modulo with a positive divisor,
which agrees with `Int.emod` here), and the mode flip. -/
def camelot_neighbors (camelot_key : Camelot) : List Camelot :=
  [⟨camelot_key.num, camelot_key.mode⟩,
   ⟨camelot_key.num % 12 + 1, camelot_key.mode⟩,
   ⟨(camelot_key.num - 2) % 12 + 1, camelot_key.mode⟩,
   ⟨camelot_key.num, camelot_key.mode.flip⟩]

/-- The twelve values of `CAMELOT_MAP`, i.e. the Camelot codes a recognized
key can resolve to. -/
def camelotCodes : List Camelot :=
  CAMELOT_MAP.map Prod.snd

/-- A track descriptor as consumed by `/order`: a dict
`{title, bpm, key, artwork}` where analysis may have left `bpm` and
`key` as `None`. -/
structure Track where
  title : String
  bpm : Option ℚ
  key : Option String
  artwork : Option String
deriving DecidableEq, Repr

/-- `CAMELOT_MAP.get(song['key'])` (lines 37–38 of `app.py`): a `None` key is
not a dict key, so the lookup yields `None`. -/
def camelotOf (song : Track) : Option Camelot :=
  song.key.bind camelotGet

/-- `abs(song1['bpm'] - song2['bpm'])` (line 35 of `app.py`): raises
(`none`) when either bpm is `None`. -/
def bpmDiff (song1 song2 : Track) : Option ℚ :=
  match song1.bpm, song2.bpm with
  | some b1, some b2 => some |b1 - b2|
  | _, _ => none

/-- The key-penalty branch of `transition_score` (lines 40–46 of `app.py`):
`100` if either lookup failed, `0` if `key2` is in `camelot_neighbors key1`,
`50` otherwise. -/
def key_penalty (song1 song2 : Track) : ℚ :=
  match camelotOf song1, camelotOf song2 with
  | some key1, some key2 => if key2 ∈ camelot_neighbors key1 then 0 else 50
  | _, _ => 100

/-- `transition_score` (lines 33–49 of `app.py`):
`key_penalty + bpm_diff * 0.5`, raising (`none`) when a bpm is `None`
(the `bpm_diff` line is evaluated first). -/
def transition_score (song1 song2 : Track) : Option ℚ :=
  (bpmDiff song1 song2).map fun bpm_diff => key_penalty song1 song2 + bpm_diff * (1/2)

/-- The bpm of a track, read off under an `isSome` hypothesis.  Used only to
state properties of well-formed tracks; never part of the embedding of the
code. -/
def bpmVal (t : Track) : ℚ :=
  t.bpm.getD 0

/-- The transition score as a number, read off under hypotheses that make it
defined.  Used only in statements; never part of the embedding of the code. -/
def scoreOf (a b : Track) : ℚ :=
  (transition_score a b).getD 0

/-- One insertion step of the stable sort underlying Python's
`sorted(songs, key=lambda s: s['bpm'])` (line 55 of `app.py`). -/
def insertBpm (a : Track) : List Track → List Track
  | [] => [a]
  | b :: l => if bpmVal a ≤ bpmVal b then a :: b :: l else b :: insertBpm a l

/-- Stable insertion sort by bpm: equal-bpm tracks keep their original
relative order, as Python's Timsort guarantees. -/
def sortByBpm : List Track → List Track
  | [] => []
  | a :: l => insertBpm a (sortByBpm l)

/-- `sorted(songs, key=lambda s: s['bpm'])` (line 55 of `app.py`).  With at
most one element no comparison happens and Python returns the list; with two
or more elements every element is compared at least once, so a `None` bpm
raises `TypeError` (`none`); otherwise the stable sort runs. -/
def sortSongs (songs : List Track) : Option (List Track) :=
  if songs.length ≤ 1 then some songs
  else if songs.all fun s => s.bpm.isSome then some (sortByBpm songs)
  else none

/-- The scan of Python's `min(songs, key=lambda s: transition_score(last, s))`
after its first element: `best`/`bestSc` is the running best, replaced only
when a candidate scores strictly lower.  A raising score aborts (`none`). -/
def pickMinAux (last best : Track) (bestSc : ℚ) : List Track → Option Track
  | [] => some best
  | s :: rest =>
    match transition_score last s with
    | none => none
    | some sc =>
      if sc < bestSc then pickMinAux last s sc rest else pickMinAux last best bestSc rest

/-- `min(songs, key=lambda s: transition_score(last, s))` (line 61 of
`app.py`): the first element attaining the minimal score; `none` when the
list is empty (Python raises on `min([])`) or a score raises. -/
def pickMin (last : Track) : List Track → Option Track
  | [] => none
  | s :: rest =>
    match transition_score last s with
    | none => none
    | some sc => pickMinAux last s sc rest

/-- The `while songs:` loop of `order_songs_greedy` (lines 58–63 of
`app.py`), with `last` the tail of the placed sequence and `fuel` a bound on
the number of iterations (the loop removes one element per iteration, so
`songs.length` iterations always suffice; `none` on fuel exhaustion is
unreachable from `order_songs_greedy`).  `songs.remove(next_song)` deletes
the first element equal to the selected one, i.e. `List.erase`. -/
def greedyGo : ℕ → Track → List Track → Option (List Track)
  | 0, _, songs => if songs.isEmpty then some [] else none
  | fuel + 1, last, songs =>
    if songs.isEmpty then some []
    else
      match pickMin last songs with
      | none => none
      | some next_song =>
        match greedyGo fuel next_song (songs.erase next_song) with
        | none => none
        | some rest => some (next_song :: rest)

/-- `order_songs_greedy` (lines 51–65 of `app.py`): empty input short-circuits
to `[]`; otherwise sort ascending by bpm, pop the slowest as the seed, and
greedily append the remaining track of minimal transition score from the
current tail.  `none` models a raised exception (the `/order` endpoint's
500 path). -/
def order_songs_greedy (songs : List Track) : Option (List Track) :=
  if songs.isEmpty then some []
  else
    match sortSongs songs with
    | none => none
    | some sorted =>
      match sorted with
      | [] => some []
      | first :: rest =>
        match greedyGo rest.length first rest with
        | none => none
        | some tail => some (first :: tail)

/-! ## Helper lemmas about the key-adjacency model and the scorer -/

/-- A successful lookup yields one of the twelve values of `CAMELOT_MAP`. -/
lemma camelotGet_mem_codes {k : String} {c : Camelot} (h : camelotGet k = some c) :
    c ∈ camelotCodes := by
  unfold camelotGet at h
  cases hfind : CAMELOT_MAP.find? fun q => q.1 == k with
  | none => simp [hfind] at h
  | some p =>
    rw [hfind] at h
    simp only [Option.map_some', Option.some.injEq] at h
    exact h ▸ List.mem_map_of_mem Prod.snd (List.mem_of_find?_eq_some hfind)

/-- On the twelve codes of the map, the neighbour relation is symmetric. -/
lemma neighbors_symm_codes :
    ∀ c1 ∈ camelotCodes, ∀ c2 ∈ camelotCodes,
      (c2 ∈ camelot_neighbors c1 ↔ c1 ∈ camelot_neighbors c2) := by
  decide

/-- `transition_score` succeeds exactly on numeric bpm pairs, with the
scorer's closed form. -/
lemma transition_score_eq {a b : Track} {b1 b2 : ℚ}
    (h1 : a.bpm = some b1) (h2 : b.bpm = some b2) :
    transition_score a b = some (key_penalty a b + |b1 - b2| * (1/2)) := by
  simp [transition_score, bpmDiff, h1, h2]

lemma transition_score_isSome {a b : Track} (ha : a.bpm.isSome) (hb : b.bpm.isSome) :
    (transition_score a b).isSome := by
  obtain ⟨b1, h1⟩ := Option.isSome_iff_exists.mp ha
  obtain ⟨b2, h2⟩ := Option.isSome_iff_exists.mp hb
  simp [transition_score_eq h1 h2]

/-! ## Helper lemmas about the stable sort -/

lemma insertBpm_perm (a : Track) (l : List Track) : List.Perm (insertBpm a l) (a :: l) := by
  induction l with
  | nil => exact List.Perm.refl _
  | cons b t ih =>
    by_cases h : bpmVal a ≤ bpmVal b
    · rw [insertBpm, if_pos h]
    · rw [insertBpm, if_neg h]
      exact (ih.cons b).trans (List.Perm.swap a b t)

lemma sortByBpm_perm (l : List Track) : List.Perm (sortByBpm l) l := by
  induction l with
  | nil => exact List.Perm.refl _
  | cons a t ih => exact (insertBpm_perm a (sortByBpm t)).trans (ih.cons a)

lemma sortSongs_perm {songs l : List Track} (h : sortSongs songs = some l) :
    List.Perm l songs := by
  unfold sortSongs at h
  split at h
  · exact (Option.some.injEq _ _ ▸ h).symm ▸ List.Perm.refl _
  · split at h
    · cases h; exact sortByBpm_perm songs
    · cases h

lemma sortSongs_eq_of_isSome {songs : List Track} (h : ∀ t ∈ songs, t.bpm.isSome) :
    sortSongs songs = some songs ∨ sortSongs songs = some (sortByBpm songs) := by
  unfold sortSongs
  split
  · exact Or.inl rfl
  · rw [if_pos (by simpa [List.all_eq_true] using h)]
    exact Or.inr rfl

/-- The head of the stable sort is the earliest track of minimal bpm: it
splits the input as `pre ++ h :: post` with every track of `pre` strictly
faster-beating, and it is a global minimum. -/
lemma sortByBpm_head :
    ∀ l : List Track, l ≠ [] →
      ∃ h t, sortByBpm l = h :: t ∧
        (∃ pre post, l = pre ++ h :: post ∧ ∀ s ∈ pre, bpmVal h < bpmVal s) ∧
        ∀ s ∈ l, bpmVal h ≤ bpmVal s := by
  intro l
  induction l with
  | nil => intro h; exact absurd rfl h
  | cons a rest ih =>
    intro _
    rcases eq_or_ne rest [] with hr | hr
    · subst hr
      exact ⟨a, [], rfl, ⟨[], [], rfl, by simp⟩, by simp⟩
    · obtain ⟨m, t', hsort, ⟨pre, post, hdecomp, hpre⟩, hmin⟩ := ih hr
      by_cases hle : bpmVal a ≤ bpmVal m
      · refine ⟨a, m :: t', ?_, ⟨[], rest, rfl, by simp⟩, ?_⟩
        · show insertBpm a (sortByBpm rest) = a :: m :: t'
          rw [hsort, insertBpm, if_pos hle]
        · intro s hs
          rcases List.mem_cons.mp hs with rfl | hs
          · exact le_refl _
          · exact hle.trans (hmin s hs)
      · push_neg at hle
        refine ⟨m, insertBpm a t', ?_, ⟨a :: pre, post, by rw [hdecomp, List.cons_append], ?_⟩, ?_⟩
        · show insertBpm a (sortByBpm rest) = m :: insertBpm a t'
          rw [hsort, insertBpm, if_neg (not_le.mpr hle)]
        · intro s hs
          rcases List.mem_cons.mp hs with rfl | hs
          · exact hle
          · exact hpre s hs
        · intro s hs
          rcases List.mem_cons.mp hs with rfl | hs
          · exact hle.le
          · exact hmin s hs

/-! ## Helper lemmas about the greedy selection -/

lemma scoreOf_eq {a b : Track} {v : ℚ} (h : transition_score a b = some v) :
    scoreOf a b = v := by
  simp [scoreOf, h]

/-- Invariant of the running-minimum scan: assuming `bsc` is the score of
`best`, a successful scan returns the first element strictly beating `bsc`
(and everything before it), or `best` when nothing does. -/
lemma pickMinAux_spec (last : Track) :
    ∀ (l : List Track) (best : Track) (bsc : ℚ) (t : Track),
      transition_score last best = some bsc →
      pickMinAux last best bsc l = some t →
      (∀ s ∈ l, (transition_score last s).isSome) ∧
      scoreOf last t ≤ bsc ∧
      (∀ s ∈ l, scoreOf last t ≤ scoreOf last s) ∧
      (t = best ∨ ∃ pre post, l = pre ++ t :: post ∧ scoreOf last t < bsc ∧
        ∀ s ∈ pre, scoreOf last t < scoreOf last s) := by
  intro l
  induction l with
  | nil =>
    intro best bsc t hbest h
    simp only [pickMinAux, Option.some.injEq] at h
    subst h
    exact ⟨by simp, by simp [scoreOf_eq hbest], by simp, Or.inl rfl⟩
  | cons s rest ih =>
    intro best bsc t hbest h
    cases hsc : transition_score last s with
    | none => simp only [pickMinAux, hsc] at h; exact Option.noConfusion h
    | some sc =>
      simp only [pickMinAux, hsc] at h
      by_cases hlt : sc < bsc
      · rw [if_pos hlt] at h
        obtain ⟨hsome, hle, hmin, hcase⟩ := ih s sc t hsc h
        refine ⟨?_, hle.trans hlt.le, ?_, ?_⟩
        · intro u hu
          rcases List.mem_cons.mp hu with rfl | hu
          · simp [hsc]
          · exact hsome u hu
        · intro u hu
          rcases List.mem_cons.mp hu with rfl | hu
          · rw [scoreOf_eq hsc]; exact hle
          · exact hmin u hu
        · rcases hcase with rfl | ⟨pre, post, hdec, hltb, hpre⟩
          · exact Or.inr ⟨[], rest, rfl, by rw [scoreOf_eq hsc]; exact hlt, by simp⟩
          · refine Or.inr ⟨s :: pre, post, by rw [hdec, List.cons_append],
              hltb.trans hlt, ?_⟩
            intro u hu
            rcases List.mem_cons.mp hu with rfl | hu
            · rw [scoreOf_eq hsc]; exact hltb
            · exact hpre u hu
      · rw [if_neg hlt] at h
        obtain ⟨hsome, hle, hmin, hcase⟩ := ih best bsc t hbest h
        push_neg at hlt
        refine ⟨?_, hle, ?_, ?_⟩
        · intro u hu
          rcases List.mem_cons.mp hu with rfl | hu
          · simp [hsc]
          · exact hsome u hu
        · intro u hu
          rcases List.mem_cons.mp hu with rfl | hu
          · rw [scoreOf_eq hsc]; exact hle.trans hlt
          · exact hmin u hu
        · rcases hcase with rfl | ⟨pre, post, hdec, hltb, hpre⟩
          · exact Or.inl rfl
          · refine Or.inr ⟨s :: pre, post, by rw [hdec, List.cons_append],
              hltb, ?_⟩
            intro u hu
            rcases List.mem_cons.mp hu with rfl | hu
            · rw [scoreOf_eq hsc]; exact hltb.trans_le hlt
            · exact hpre u hu

/-- A successful `min` scan selects the first element of minimal score:
all scores are defined, the result is a global minimum, and every element
before it in the list scores strictly worse. -/
lemma pickMin_spec {last : Track} {songs : List Track} {t : Track}
    (h : pickMin last songs = some t) :
    (∀ s ∈ songs, (transition_score last s).isSome) ∧
    (∀ s ∈ songs, scoreOf last t ≤ scoreOf last s) ∧
    ∃ pre post, songs = pre ++ t :: post ∧
      ∀ s ∈ pre, scoreOf last t < scoreOf last s := by
  cases songs with
  | nil => simp [pickMin] at h
  | cons s rest =>
    cases hsc : transition_score last s with
    | none => simp only [pickMin, hsc] at h; exact Option.noConfusion h
    | some sc =>
      simp only [pickMin, hsc] at h
      obtain ⟨hsome, hle, hmin, hcase⟩ := pickMinAux_spec last rest s sc t hsc h
      refine ⟨?_, ?_, ?_⟩
      · intro u hu
        rcases List.mem_cons.mp hu with rfl | hu
        · simp [hsc]
        · exact hsome u hu
      · intro u hu
        rcases List.mem_cons.mp hu with rfl | hu
        · rw [scoreOf_eq hsc]; exact hle
        · exact hmin u hu
      · rcases hcase with rfl | ⟨pre, post, hdec, hltb, hpre⟩
        · exact ⟨[], rest, rfl, by simp⟩
        · refine ⟨s :: pre, post, by rw [hdec, List.cons_append], ?_⟩
          intro u hu
          rcases List.mem_cons.mp hu with rfl | hu
          · rw [scoreOf_eq hsc]; exact hltb
          · exact hpre u hu

lemma pickMin_mem {last : Track} {songs : List Track} {t : Track}
    (h : pickMin last songs = some t) : t ∈ songs := by
  obtain ⟨pre, post, hdec, _⟩ := (pickMin_spec h).2.2
  rw [hdec]
  simp

lemma pickMinAux_isSome (last : Track) :
    ∀ (l : List Track) (best : Track) (bsc : ℚ),
      (∀ s ∈ l, (transition_score last s).isSome) →
      (pickMinAux last best bsc l).isSome := by
  intro l
  induction l with
  | nil => intro best bsc _; simp [pickMinAux]
  | cons s rest ih =>
    intro best bsc hl
    obtain ⟨sc, hsc⟩ := Option.isSome_iff_exists.mp (hl s (by simp))
    simp only [pickMinAux, hsc]
    by_cases hlt : sc < bsc
    · rw [if_pos hlt]; exact ih s sc fun u hu => hl u (by simp [hu])
    · rw [if_neg hlt]; exact ih best bsc fun u hu => hl u (by simp [hu])

lemma pickMin_isSome {last : Track} {songs : List Track} (hne : songs ≠ [])
    (hlast : last.bpm.isSome) (hall : ∀ s ∈ songs, s.bpm.isSome) :
    (pickMin last songs).isSome := by
  cases songs with
  | nil => exact absurd rfl hne
  | cons s rest =>
    obtain ⟨sc, hsc⟩ :=
      Option.isSome_iff_exists.mp (transition_score_isSome hlast (hall s (by simp)))
    simp only [pickMin, hsc]
    exact pickMinAux_isSome last rest s sc
      fun u hu => transition_score_isSome hlast (hall u (by simp [hu]))

/-- The greedy loop succeeds on well-formed tracks when given enough fuel,
and its output is a permutation of its unplaced pool. -/
lemma greedyGo_some_perm :
    ∀ (fuel : ℕ) (last : Track) (songs : List Track),
      songs.length ≤ fuel → last.bpm.isSome → (∀ s ∈ songs, s.bpm.isSome) →
      ∃ out, greedyGo fuel last songs = some out ∧ List.Perm out songs := by
  intro fuel
  induction fuel with
  | zero =>
    intro last songs hlen _ _
    have hnil : songs = [] := List.length_eq_zero.mp (Nat.le_zero.mp hlen)
    subst hnil
    exact ⟨[], by simp [greedyGo], List.Perm.refl _⟩
  | succ fuel ih =>
    intro last songs hlen hlast hall
    rcases eq_or_ne songs [] with rfl | hne
    · exact ⟨[], by simp [greedyGo], List.Perm.refl _⟩
    · obtain ⟨t, hpickeq⟩ :=
        Option.isSome_iff_exists.mp (pickMin_isSome hne hlast hall)
      have htmem : t ∈ songs := pickMin_mem hpickeq
      have hlen' : (songs.erase t).length ≤ fuel := by
        rw [List.length_erase_of_mem htmem]
        omega
      have hall' : ∀ s ∈ songs.erase t, s.bpm.isSome :=
        fun s hs => hall s (List.mem_of_mem_erase hs)
      obtain ⟨out', hgo, hperm⟩ := ih t (songs.erase t) hlen' (hall t htmem) hall'
      refine ⟨t :: out', ?_, ?_⟩
      · have hno : songs.isEmpty = false := by simp [List.isEmpty_iff, hne]
        simp only [greedyGo, hno, hpickeq, hgo, Bool.false_eq_true, if_false]
      · exact (hperm.cons t).trans (List.perm_cons_erase htmem).symm

/-- `sorted` on a non-empty well-formed input yields a head that is the
earliest track of minimal bpm, followed by the rest of a permutation. -/
lemma sortSongs_head_spec {songs : List Track} (h : ∀ t ∈ songs, t.bpm.isSome)
    (hne : songs ≠ []) :
    ∃ first t', sortSongs songs = some (first :: t') ∧
      List.Perm (first :: t') songs ∧
      (∃ pre post, songs = pre ++ first :: post ∧ ∀ s ∈ pre, bpmVal first < bpmVal s) ∧
      ∀ s ∈ songs, bpmVal first ≤ bpmVal s := by
  unfold sortSongs
  by_cases hlen : songs.length ≤ 1
  · rw [if_pos hlen]
    cases songs with
    | nil => exact absurd rfl hne
    | cons x rest =>
      have hrest : rest = [] := by
        cases rest with
        | nil => rfl
        | cons y l => simp at hlen
      subst hrest
      exact ⟨x, [], rfl, List.Perm.refl _, ⟨[], [], rfl, by simp⟩, by simp⟩
  · rw [if_neg hlen, if_pos (by simpa [List.all_eq_true] using h)]
    obtain ⟨first, t', hsort, hdec, hmin⟩ := sortByBpm_head songs hne
    exact ⟨first, t', by rw [hsort], hsort ▸ sortByBpm_perm songs, hdec, hmin⟩

/-- Combined specification of `order_songs_greedy` on a non-empty
well-formed input: it succeeds, permutes its input, and seeds the output
with the earliest slowest track. -/
lemma order_songs_greedy_spec {songs : List Track}
    (h : ∀ t ∈ songs, t.bpm.isSome) (hne : songs ≠ []) :
    ∃ first tail, order_songs_greedy songs = some (first :: tail) ∧
      List.Perm (first :: tail) songs ∧
      (∃ pre post, songs = pre ++ first :: post ∧ ∀ s ∈ pre, bpmVal first < bpmVal s) ∧
      ∀ s ∈ songs, bpmVal first ≤ bpmVal s := by
  obtain ⟨first, t', hsort, hperm, hdec, hmin⟩ := sortSongs_head_spec h hne
  have hfirst : first.bpm.isSome := h first (hperm.subset (by simp))
  have hall' : ∀ s ∈ t', s.bpm.isSome := fun s hs => h s (hperm.subset (by simp [hs]))
  obtain ⟨tail, hgo, hpermtail⟩ :=
    greedyGo_some_perm t'.length first t' (le_refl _) hfirst hall'
  refine ⟨first, tail, ?_, (hpermtail.cons first).trans hperm, hdec, hmin⟩
  have hno : songs.isEmpty = false := by simp [List.isEmpty_iff, hne]
  simp only [order_songs_greedy, hno, hsort, hgo, Bool.false_eq_true, if_false]

/-! ## Remaining helper lemmas about the key penalty -/

lemma key_penalty_unknown {s1 s2 : Track}
    (h : camelotOf s1 = none ∨ camelotOf s2 = none) :
    key_penalty s1 s2 = 100 := by
  unfold key_penalty
  cases hc1 : camelotOf s1 <;> cases hc2 : camelotOf s2 <;> rcases h with h | h <;>
    simp_all

lemma key_penalty_known {s1 s2 : Track} {k1 k2 : Camelot}
    (h1 : camelotOf s1 = some k1) (h2 : camelotOf s2 = some k2) :
    key_penalty s1 s2 = if k2 ∈ camelot_neighbors k1 then 0 else 50 := by
  unfold key_penalty
  rw [h1, h2]

lemma camelotOf_mem_codes {s : Track} {c : Camelot} (h : camelotOf s = some c) :
    c ∈ camelotCodes := by
  unfold camelotOf at h
  obtain ⟨k, _, hget⟩ := Option.bind_eq_some.mp h
  exact camelotGet_mem_codes hget

/-! ## The claims -/

/-- **C1.** For tracks with numeric bpm, `transition_score` returns exactly
`100 + 0.5·Δbpm` when either key fails to resolve in the Camelot map,
`0 + 0.5·Δbpm` when both resolve and the successor's code is a
`camelot_neighbors` member of the predecessor's, `50 + 0.5·Δbpm` when both
resolve but it is not; in particular an absent (`None`) key on either side
always yields the `100` tier. -/
theorem transition_score_tiers (s1 s2 : Track) (b1 b2 : ℚ)
    (h1 : s1.bpm = some b1) (h2 : s2.bpm = some b2) :
    ((camelotOf s1 = none ∨ camelotOf s2 = none) →
      transition_score s1 s2 = some (100 + |b1 - b2| * (1/2))) ∧
    (∀ k1 k2, camelotOf s1 = some k1 → camelotOf s2 = some k2 →
      (k2 ∈ camelot_neighbors k1 →
        transition_score s1 s2 = some (0 + |b1 - b2| * (1/2))) ∧
      (k2 ∉ camelot_neighbors k1 →
        transition_score s1 s2 = some (50 + |b1 - b2| * (1/2)))) ∧
    ((s1.key = none ∨ s2.key = none) →
      transition_score s1 s2 = some (100 + |b1 - b2| * (1/2))) := by
  refine ⟨?_, ?_, ?_⟩
  · intro hk
    rw [transition_score_eq h1 h2, key_penalty_unknown hk]
  · intro k1 k2 hk1 hk2
    constructor <;> intro hmem <;> rw [transition_score_eq h1 h2, key_penalty_known hk1 hk2]
    · rw [if_pos hmem]
    · rw [if_neg hmem]
  · intro hk
    have hnone : camelotOf s1 = none ∨ camelotOf s2 = none := by
      rcases hk with hk | hk
      · exact Or.inl (by simp [camelotOf, hk])
      · exact Or.inr (by simp [camelotOf, hk])
    rw [transition_score_eq h1 h2, key_penalty_unknown hnone]

/-- Witness for C1 at concrete inputs: key C at 120 bpm into key G at
122 bpm (8B into its clockwise neighbour 9B). -/
theorem transition_score_tiers_witness :
    ((camelotOf ⟨"a", some 120, some "C", none⟩ = none ∨
        camelotOf ⟨"b", some 122, some "G", none⟩ = none) →
      transition_score ⟨"a", some 120, some "C", none⟩ ⟨"b", some 122, some "G", none⟩ =
        some (100 + |(120 : ℚ) - 122| * (1/2))) ∧
    (∀ k1 k2, camelotOf ⟨"a", some 120, some "C", none⟩ = some k1 →
      camelotOf ⟨"b", some 122, some "G", none⟩ = some k2 →
      (k2 ∈ camelot_neighbors k1 →
        transition_score ⟨"a", some 120, some "C", none⟩ ⟨"b", some 122, some "G", none⟩ =
          some (0 + |(120 : ℚ) - 122| * (1/2))) ∧
      (k2 ∉ camelot_neighbors k1 →
        transition_score ⟨"a", some 120, some "C", none⟩ ⟨"b", some 122, some "G", none⟩ =
          some (50 + |(120 : ℚ) - 122| * (1/2)))) ∧
    ((Track.key ⟨"a", some 120, some "C", none⟩ = none ∨
        Track.key ⟨"b", some 122, some "G", none⟩ = none) →
      transition_score ⟨"a", some 120, some "C", none⟩ ⟨"b", some 122, some "G", none⟩ =
        some (100 + |(120 : ℚ) - 122| * (1/2))) :=
  transition_score_tiers _ _ 120 122 rfl rfl

/-- **C4.** For a Camelot code with wheel position in `1..12`,
`camelot_neighbors` is exactly the four-element list of the code itself, the
clockwise neighbour `(num % 12) + 1`, the floor-modulo counterclockwise
neighbour `(num - 2) % 12 + 1` and the mode flip; the four are pairwise
distinct, and positions 1 and 12 wrap onto each other. -/
theorem camelot_neighbors_spec (n : ℤ) (m : Mode) (h1 : 1 ≤ n) (h2 : n ≤ 12) :
    camelot_neighbors ⟨n, m⟩ =
      [⟨n, m⟩, ⟨n % 12 + 1, m⟩, ⟨(n - 2) % 12 + 1, m⟩, ⟨n, m.flip⟩] ∧
    (camelot_neighbors ⟨n, m⟩).length = 4 ∧
    (camelot_neighbors ⟨n, m⟩).Nodup ∧
    Camelot.mk n m ∈ camelot_neighbors ⟨n, m⟩ ∧
    Camelot.mk 12 m ∈ camelot_neighbors ⟨1, m⟩ ∧
    Camelot.mk 1 m ∈ camelot_neighbors ⟨12, m⟩ := by
  cases m <;> interval_cases n <;> decide

/-- Witness for C4 at wheel position 1, mode B. -/
theorem camelot_neighbors_spec_witness :
    camelot_neighbors ⟨1, Mode.B⟩ =
      [⟨1, Mode.B⟩, ⟨1 % 12 + 1, Mode.B⟩, ⟨(1 - 2) % 12 + 1, Mode.B⟩,
       ⟨1, Mode.B.flip⟩] ∧
    (camelot_neighbors ⟨1, Mode.B⟩).length = 4 ∧
    (camelot_neighbors ⟨1, Mode.B⟩).Nodup ∧
    Camelot.mk 1 Mode.B ∈ camelot_neighbors ⟨1, Mode.B⟩ ∧
    Camelot.mk 12 Mode.B ∈ camelot_neighbors ⟨1, Mode.B⟩ ∧
    Camelot.mk 1 Mode.B ∈ camelot_neighbors ⟨12, Mode.B⟩ :=
  camelot_neighbors_spec 1 Mode.B (by decide) (by decide)

/-- **C6.** For tracks with numeric bpm the scorer is symmetric,
whatever the keys: the unknown branch fires for both orders whenever either
key is unresolved, and on resolved codes the neighbour relation is
symmetric. -/
theorem transition_score_symm (a b : Track) (ha : a.bpm.isSome) (hb : b.bpm.isSome) :
    transition_score a b = transition_score b a ∧
    ∀ k1 k2, camelotOf a = some k1 → camelotOf b = some k2 →
      (k2 ∈ camelot_neighbors k1 ↔ k1 ∈ camelot_neighbors k2) := by
  have hsymm : ∀ k1 k2, camelotOf a = some k1 → camelotOf b = some k2 →
      (k2 ∈ camelot_neighbors k1 ↔ k1 ∈ camelot_neighbors k2) := by
    intro k1 k2 hk1 hk2
    exact neighbors_symm_codes k1 (camelotOf_mem_codes hk1) k2 (camelotOf_mem_codes hk2)
  refine ⟨?_, hsymm⟩
  obtain ⟨b1, h1⟩ := Option.isSome_iff_exists.mp ha
  obtain ⟨b2, h2⟩ := Option.isSome_iff_exists.mp hb
  rw [transition_score_eq h1 h2, transition_score_eq h2 h1, abs_sub_comm b1 b2]
  have hkp : key_penalty a b = key_penalty b a := by
    cases hc1 : camelotOf a with
    | none => rw [key_penalty_unknown (Or.inl hc1), key_penalty_unknown (Or.inr hc1)]
    | some k1 =>
      cases hc2 : camelotOf b with
      | none => rw [key_penalty_unknown (Or.inr hc2), key_penalty_unknown (Or.inl hc2)]
      | some k2 =>
        rw [key_penalty_known hc1 hc2, key_penalty_known hc2 hc1]
        have hiff := hsymm k1 k2 hc1 hc2
        by_cases hm : k2 ∈ camelot_neighbors k1
        · rw [if_pos hm, if_pos (hiff.mp hm)]
        · rw [if_neg hm, if_neg fun hmm => hm (hiff.mpr hmm)]
  rw [hkp]

/-- Witness for C6: a recognized key against a missing key, both orders
scoring through the unknown branch. -/
theorem transition_score_symm_witness :
    transition_score ⟨"a", some 120, some "C", none⟩ ⟨"b", some 100, none, none⟩ =
      transition_score ⟨"b", some 100, none, none⟩ ⟨"a", some 120, some "C", none⟩ ∧
    ∀ k1 k2, camelotOf ⟨"a", some 120, some "C", none⟩ = some k1 →
      camelotOf ⟨"b", some 100, none, none⟩ = some k2 →
      (k2 ∈ camelot_neighbors k1 ↔ k1 ∈ camelot_neighbors k2) :=
  transition_score_symm _ _ rfl rfl

/-- **C7.** When either track's bpm is absent, `transition_score` has no
numeric result: the `abs(None - x)` subtraction raises, modelled by `none`
(never a defaulted number). -/
theorem transition_score_missing_bpm (a b : Track)
    (h : a.bpm = none ∨ b.bpm = none) :
    transition_score a b = none := by
  unfold transition_score bpmDiff
  cases ha : a.bpm <;> cases hb : b.bpm <;> simp_all

/-- Witness for C7: a key-complete track whose bpm analysis failed, scored
against a fully analyzed track. -/
theorem transition_score_missing_bpm_witness :
    transition_score ⟨"x", none, some "C", none⟩ ⟨"y", some 120, some "G", none⟩ = none :=
  transition_score_missing_bpm _ _ (Or.inl rfl)

/-- **C9.** The sequencer maps the empty list to the empty list and any
singleton to itself. -/
theorem order_songs_greedy_base :
    order_songs_greedy ([] : List Track) = some [] ∧
    ∀ x : Track, order_songs_greedy [x] = some [x] := by
  exact ⟨rfl, fun x => rfl⟩

/-- **C10.** `CAMELOT_MAP` is keyed by exactly the twelve pitch-class
labels; every value is a mode-B code with wheel position in `1..12`; the
twelve positions are exactly `{1, ..., 12}`; the key-to-code mapping is
injective, so no two recognized keys share a Camelot code. -/
theorem CAMELOT_MAP_spec :
    CAMELOT_MAP.map Prod.fst = notes ∧
    (∀ k ∈ notes, ∃ c ∈ camelotCodes, camelotGet k = some c) ∧
    (∀ c ∈ camelotCodes, c.mode = Mode.B ∧ 1 ≤ c.num ∧ c.num ≤ 12) ∧
    camelotCodes.Nodup ∧
    List.Perm (camelotCodes.map Camelot.num)
      ((List.range 12).map fun i => (i : ℤ) + 1) ∧
    (∀ k1 ∈ notes, ∀ k2 ∈ notes, camelotGet k1 = camelotGet k2 → k1 = k2) := by
  decide

/-- **C2.** On any list of well-formed tracks (numeric bpm), the sequencer
returns a permutation of its input: same multiset, same length, nothing
duplicated or dropped — also when the input holds equal duplicates. -/
theorem order_songs_greedy_perm (songs : List Track)
    (h : ∀ t ∈ songs, t.bpm.isSome) :
    ∃ out, order_songs_greedy songs = some out ∧ List.Perm out songs ∧
      out.length = songs.length := by
  rcases eq_or_ne songs [] with rfl | hne
  · exact ⟨[], by simp [order_songs_greedy], List.Perm.refl _, rfl⟩
  · obtain ⟨first, tail, heq, hperm, _, _⟩ := order_songs_greedy_spec h hne
    exact ⟨first :: tail, heq, hperm, hperm.length_eq⟩

/-- Witness for C2 on an input containing an exact duplicate descriptor. -/
theorem order_songs_greedy_perm_witness :
    ∃ out, order_songs_greedy
        [⟨"a", some 120, some "C", none⟩, ⟨"a", some 120, some "C", none⟩,
         ⟨"b", some 100, none, none⟩] = some out ∧
      List.Perm out
        [⟨"a", some 120, some "C", none⟩, ⟨"a", some 120, some "C", none⟩,
         ⟨"b", some 100, none, none⟩] ∧
      out.length =
        ([⟨"a", some 120, some "C", none⟩, ⟨"a", some 120, some "C", none⟩,
          ⟨"b", some 100, none, none⟩] : List Track).length :=
  order_songs_greedy_perm _ (by decide)

/-- **C3.** On a non-empty list of well-formed tracks, the first output
element is a minimal-bpm track, and among minimal-bpm ties it is the one
occurring earliest in the original input (every strictly earlier input
track has strictly larger bpm). -/
theorem order_songs_greedy_seed (songs : List Track) (hne : songs ≠ [])
    (h : ∀ t ∈ songs, t.bpm.isSome) :
    ∃ first tail, order_songs_greedy songs = some (first :: tail) ∧
      (∃ pre post, songs = pre ++ first :: post ∧
        ∀ s ∈ pre, bpmVal first < bpmVal s) ∧
      ∀ s ∈ songs, bpmVal first ≤ bpmVal s := by
  obtain ⟨first, tail, heq, _, hdec, hmin⟩ := order_songs_greedy_spec h hne
  exact ⟨first, tail, heq, hdec, hmin⟩

/-- Witness for C3 on a two-track input whose slower track comes second. -/
theorem order_songs_greedy_seed_witness :
    ∃ first tail, order_songs_greedy
        [⟨"y", some 120, none, none⟩, ⟨"x", some 100, none, none⟩] =
        some (first :: tail) ∧
      (∃ pre post, ([⟨"y", some 120, none, none⟩, ⟨"x", some 100, none, none⟩] :
          List Track) = pre ++ first :: post ∧
        ∀ s ∈ pre, bpmVal first < bpmVal s) ∧
      ∀ s ∈ ([⟨"y", some 120, none, none⟩, ⟨"x", some 100, none, none⟩] :
          List Track), bpmVal first ≤ bpmVal s :=
  order_songs_greedy_seed _ (by decide) (by decide)

/-- **C5.** A successful greedy selection step (`min` over the unplaced
list) returns the first element attaining the minimal transition score from
the current tail — every earlier unplaced track scores strictly worse — and
a successful loop iteration appends exactly that element next. -/
theorem greedy_tie_break (last : Track) (songs : List Track) (t : Track)
    (h : pickMin last songs = some t) :
    (∀ s ∈ songs, (transition_score last s).isSome) ∧
    (∀ s ∈ songs, scoreOf last t ≤ scoreOf last s) ∧
    (∃ pre post, songs = pre ++ t :: post ∧
      ∀ s ∈ pre, scoreOf last t < scoreOf last s) ∧
    ∀ fuel out, greedyGo (fuel + 1) last songs = some out →
      ∃ rest, out = t :: rest := by
  obtain ⟨h1, h2, h3⟩ := pickMin_spec h
  refine ⟨h1, h2, h3, ?_⟩
  intro fuel out hgo
  have hne : songs ≠ [] := by
    obtain ⟨pre, post, hdec, _⟩ := h3
    simp [hdec]
  have hno : songs.isEmpty = false := by simp [List.isEmpty_iff, hne]
  simp only [greedyGo, hno, h, Bool.false_eq_true, if_false] at hgo
  cases hrec : greedyGo fuel t (songs.erase t) with
  | none => rw [hrec] at hgo; exact Option.noConfusion hgo
  | some rest =>
    rw [hrec] at hgo
    exact ⟨rest, by simpa using hgo.symm⟩

/-- Witness for C5: from a tail of unknown key, a same-tempo and a
faster candidate score 100 and 110; the scan keeps the earlier one. -/
theorem greedy_tie_break_witness :
    (∀ s ∈ ([⟨"x", some 100, none, none⟩, ⟨"y", some 120, none, none⟩] : List Track),
      (transition_score ⟨"l", some 100, none, none⟩ s).isSome) ∧
    (∀ s ∈ ([⟨"x", some 100, none, none⟩, ⟨"y", some 120, none, none⟩] : List Track),
      scoreOf ⟨"l", some 100, none, none⟩ ⟨"x", some 100, none, none⟩ ≤
        scoreOf ⟨"l", some 100, none, none⟩ s) ∧
    (∃ pre post, ([⟨"x", some 100, none, none⟩, ⟨"y", some 120, none, none⟩] :
        List Track) = pre ++ ⟨"x", some 100, none, none⟩ :: post ∧
      ∀ s ∈ pre, scoreOf ⟨"l", some 100, none, none⟩ ⟨"x", some 100, none, none⟩ <
        scoreOf ⟨"l", some 100, none, none⟩ s) ∧
    ∀ fuel out, greedyGo (fuel + 1) ⟨"l", some 100, none, none⟩
        [⟨"x", some 100, none, none⟩, ⟨"y", some 120, none, none⟩] = some out →
      ∃ rest, out = ⟨"x", some 100, none, none⟩ :: rest := by
  apply greedy_tie_break
  have hk1 : key_penalty ⟨"l", some 100, none, none⟩ ⟨"x", some 100, none, none⟩ = 100 := rfl
  have hk2 : key_penalty ⟨"l", some 100, none, none⟩ ⟨"y", some 120, none, none⟩ = 100 := rfl
  have hs1 : transition_score ⟨"l", some 100, none, none⟩ ⟨"x", some 100, none, none⟩
      = some 100 := by
    rw [transition_score_eq rfl rfl, hk1]; norm_num
  have hs2 : transition_score ⟨"l", some 100, none, none⟩ ⟨"y", some 120, none, none⟩
      = some 110 := by
    rw [transition_score_eq rfl rfl, hk2]; norm_num
  have hc : ¬((110:ℚ) < 100) := by norm_num
  simp [pickMin, pickMinAux, hs1, hs2, hc]

/-- **C8.** End-to-end scenario: keys F#, C, G map to 2B, 8B, 9B; neither
8B nor 9B neighbours 2B (while 9B does neighbour 8B);
`score(F#, C) = 65` and `score(F#, G) = 66`; hence the greedy order for
`[{C,120}, {G,122}, {F#,90}]` is exactly `[F#(90), C(120), G(122)]`. -/
theorem scenario_A :
    camelotGet "F#" = some ⟨2, Mode.B⟩ ∧
    camelotGet "C" = some ⟨8, Mode.B⟩ ∧
    camelotGet "G" = some ⟨9, Mode.B⟩ ∧
    Camelot.mk 8 Mode.B ∉ camelot_neighbors ⟨2, Mode.B⟩ ∧
    Camelot.mk 9 Mode.B ∉ camelot_neighbors ⟨2, Mode.B⟩ ∧
    Camelot.mk 9 Mode.B ∈ camelot_neighbors ⟨8, Mode.B⟩ ∧
    transition_score ⟨"fs", some 90, some "F#", none⟩ ⟨"c", some 120, some "C", none⟩ =
      some 65 ∧
    transition_score ⟨"fs", some 90, some "F#", none⟩ ⟨"g", some 122, some "G", none⟩ =
      some 66 ∧
    order_songs_greedy
      [⟨"c", some 120, some "C", none⟩, ⟨"g", some 122, some "G", none⟩,
       ⟨"fs", some 90, some "F#", none⟩] =
      some [⟨"fs", some 90, some "F#", none⟩, ⟨"c", some 120, some "C", none⟩,
            ⟨"g", some 122, some "G", none⟩] := by
  have hk1 : key_penalty ⟨"fs", some 90, some "F#", none⟩ ⟨"c", some 120, some "C", none⟩
      = 50 := rfl
  have hk2 : key_penalty ⟨"fs", some 90, some "F#", none⟩ ⟨"g", some 122, some "G", none⟩
      = 50 := rfl
  have hk3 : key_penalty ⟨"c", some 120, some "C", none⟩ ⟨"g", some 122, some "G", none⟩
      = 0 := rfl
  have hs1 : transition_score ⟨"fs", some 90, some "F#", none⟩
      ⟨"c", some 120, some "C", none⟩ = some 65 := by
    rw [transition_score_eq rfl rfl, hk1]; norm_num
  have hs2 : transition_score ⟨"fs", some 90, some "F#", none⟩
      ⟨"g", some 122, some "G", none⟩ = some 66 := by
    rw [transition_score_eq rfl rfl, hk2]; norm_num
  have hs3 : transition_score ⟨"c", some 120, some "C", none⟩
      ⟨"g", some 122, some "G", none⟩ = some 1 := by
    rw [transition_score_eq rfl rfl, hk3]; norm_num
  have c1 : ¬((122:ℚ) ≤ 90) := by norm_num
  have c2 : ¬((120:ℚ) ≤ 90) := by norm_num
  have c3 : (120:ℚ) ≤ 122 := by norm_num
  have c4 : ¬((66:ℚ) < 65) := by norm_num
  have he1 : ([⟨"c", some 120, some "C", none⟩, ⟨"g", some 122, some "G", none⟩] :
      List Track).erase ⟨"c", some 120, some "C", none⟩ =
      [⟨"g", some 122, some "G", none⟩] := by decide
  have he2 : ([⟨"g", some 122, some "G", none⟩] : List Track).erase
      ⟨"g", some 122, some "G", none⟩ = [] := by decide
  refine ⟨rfl, rfl, rfl, by decide, by decide, by decide, hs1, hs2, ?_⟩
  simp [order_songs_greedy, sortSongs, sortByBpm, insertBpm, bpmVal, greedyGo,
    pickMin, pickMinAux, hs1, hs2, hs3, c1, c2, c3, c4, he1, he2]

end BPMix
